import Mathlib


/-!
# filestatrec — verification of the snapshot-file subsystem

Shallow embedding of `src/statfile.rs` from the `filestatrec` repository.
Bytes are modelled as `Nat` (with explicit `< 256` bounds where the value
range matters), byte strings as `List Nat`, fallible Rust functions
(`std::io::Result`) as `Except String` — every error produced by the
embedded code paths is an `ErrorKind::InvalidData` ("malformed input")
error in the source, so the error payload is just the message text.
-/

deriving instance DecidableEq for Except

namespace Filestatrec

/-! ## The embedded data model and operations (from src/statfile.rs), and
the specification-side definitions the claims compare them against -/

/-- Rust `slice::split` / `str::split` on a single separator byte: `n`
separators yield `n + 1` (possibly empty) chunks; the empty input yields
one empty chunk. -/
def rustSplit (sep : Nat) : List Nat → List (List Nat)
  | [] => [[]]
  | c :: rest =>
    if c = sep then [] :: rustSplit sep rest
    else
      match rustSplit sep rest with
      | [] => [[c]]
      | chunk :: chunks => (c :: chunk) :: chunks

/-- `u8::is_ascii_control`: byte value below 0x20, or 0x7F (DEL). -/
def is_ascii_control (c : Nat) : Bool := c < 0x20 || c = 0x7F

/-- `char::to_digit(radix)` applied to the Latin-1 char of a byte:
ASCII `0`-`9` then `a`-`z` / `A`-`Z` give a candidate digit value,
accepted when below the radix. -/
def to_digit (radix c : Nat) : Option Nat :=
  if 0x30 ≤ c ∧ c ≤ 0x39 ∧ c - 0x30 < radix then some (c - 0x30)
  else if 0x61 ≤ c ∧ c ≤ 0x7A ∧ c - 0x61 + 10 < radix then some (c - 0x61 + 10)
  else if 0x41 ≤ c ∧ c ≤ 0x5A ∧ c - 0x41 + 10 < radix then some (c - 0x41 + 10)
  else none

/-- A UTF-8 continuation byte (0x80..=0xBF). -/
def utf8Cont (c : Nat) : Bool := 0x80 ≤ c && c ≤ 0xBF

/-- For a lead byte `c` followed by `rest`, the number of continuation
bytes of a well-formed UTF-8 sequence starting there (`none` if the bytes
do not start a well-formed sequence): shortest forms only, surrogates
excluded, max U+10FFFF — the table used by `str::from_utf8`. A missing
byte is read as the out-of-range sentinel 0x100, which fails every
range check, so truncated sequences are rejected. -/
def utf8SeqLen (c : Nat) (rest : List Nat) : Option Nat :=
  let b0 := rest.getD 0 0x100
  let b1 := rest.getD 1 0x100
  let b2 := rest.getD 2 0x100
  if c ≤ 0x7F then some 0
  else if 0xC2 ≤ c && c ≤ 0xDF then
    if utf8Cont b0 then some 1 else none
  else if c = 0xE0 then
    if (0xA0 ≤ b0 && b0 ≤ 0xBF) && utf8Cont b1 then some 2 else none
  else if (0xE1 ≤ c && c ≤ 0xEC) || c = 0xEE || c = 0xEF then
    if utf8Cont b0 && utf8Cont b1 then some 2 else none
  else if c = 0xED then
    if (0x80 ≤ b0 && b0 ≤ 0x9F) && utf8Cont b1 then some 2 else none
  else if c = 0xF0 then
    if (0x90 ≤ b0 && b0 ≤ 0xBF) && utf8Cont b1 && utf8Cont b2 then some 3 else none
  else if 0xF1 ≤ c && c ≤ 0xF3 then
    if utf8Cont b0 && utf8Cont b1 && utf8Cont b2 then some 3 else none
  else if c = 0xF4 then
    if (0x80 ≤ b0 && b0 ≤ 0x8F) && utf8Cont b1 && utf8Cont b2 then some 3 else none
  else none

/-- Fuel-indexed validation loop; the fuel only serves structural
termination and any fuel at least the list length gives the same answer. -/
def utf8Go : Nat → List Nat → Bool
  | _, [] => true
  | 0, _ :: _ => false
  | fuel + 1, c :: rest =>
    match utf8SeqLen c rest with
    | some k => utf8Go fuel (rest.drop k)
    | none => false

/-- `str::from_utf8(..).is_ok()`: the input decomposes into well-formed
UTF-8 sequences. -/
def isValidUtf8 (l : List Nat) : Bool := utf8Go l.length l

/-- The `HEXDIGIT` table: `b"0123456789abcdef"`. -/
def HEXDIGIT : List Nat :=
  [0x30, 0x31, 0x32, 0x33, 0x34, 0x35, 0x36, 0x37, 0x38, 0x39,
   0x61, 0x62, 0x63, 0x64, 0x65, 0x66]

/-- `HEXDIGIT[d]`. -/
def hexdigit (d : Nat) : Nat := HEXDIGIT.getD d 0

/-- The `escape_byte` closure: ASCII control, backslash, or (when the
whole input is not valid UTF-8) any byte ≥ 0x80. -/
def escape_byte (escape_high : Bool) (c : Nat) : Bool :=
  is_ascii_control c || c = 0x5C || (escape_high && 0x80 ≤ c)

/-- The per-byte rendering inside `escape`'s rewrite loop: `\` becomes
`\\`, any other must-escape byte becomes `\xHH` (lowercase hex), the rest
pass through. -/
def escEnc (escape_high : Bool) (c : Nat) : List Nat :=
  if c = 0x5C then [0x5C, 0x5C]
  else if escape_byte escape_high c then [0x5C, 0x78, hexdigit (c / 16), hexdigit (c % 16)]
  else [c]

/-- The rewrite loop body of `escape` over the whole input. -/
def escapeBody (escape_high : Bool) : List Nat → List Nat
  | [] => []
  | c :: rest => escEnc escape_high c ++ escapeBody escape_high rest

/-- `escape` (statfile.rs 154-181): when no byte must be escaped the input
is returned unchanged (borrowed in the source); otherwise every byte is
rendered through the rewrite loop. -/
def escape (name : List Nat) : List Nat :=
  let escape_high := !isValidUtf8 name
  if 0 < (name.filter (escape_byte escape_high)).length then
    escapeBody escape_high name
  else name

/-- The `while let` loop of `unescape`: a backslash starts an escape
(`\\`, or `\xHH` with two hex digits); everything else is literal. -/
def unescapeLoop : List Nat → Except String (List Nat)
  | [] => .ok []
  | c :: rest =>
    if c = 0x5C then
      match rest with
      | [] => .error "unterminated escape character"
      | d :: rest =>
        if d = 0x5C then Except.map (fun l => 0x5C :: l) (unescapeLoop rest)
        else if d = 0x78 then
          match rest with
          | hi :: lo :: rest =>
            match to_digit 16 hi, to_digit 16 lo with
            | some h, some l => Except.map (fun t => (h * 16 + l) :: t) (unescapeLoop rest)
            | _, _ => .error "invalid hexadecimal escape"
          | _ => .error "truncated hexadecimal escape"
        else .error "unknown escape character"
    else Except.map (fun l => c :: l) (unescapeLoop rest)

/-- `unescape` (statfile.rs 183-225): inputs without a backslash are
returned unchanged (borrowed in the source); otherwise the escape-decoding
loop runs. -/
def unescape (name : List Nat) : Except String (List Nat) :=
  if name.contains 0x5C then unescapeLoop name else .ok name

def checkedFold (radix maxVal : Nat) : List Nat → Nat → Except String Nat
  | [], acc => .ok acc
  | c :: rest, acc =>
    match to_digit radix c with
    | none => .error "invalid digit found in string"
    | some d =>
      if acc * radix + d ≤ maxVal then checkedFold radix maxVal rest (acc * radix + d)
      else .error "number too large to fit in target type"

/-- `u32::from_str_radix(s, 8)` (the `RawMode` parse in `set_mode`): an
optional leading `+` (a lone sign or the empty string is an error; `-` is
not accepted for an unsigned type, so it falls into the digit loop and
fails there), then checked octal digits. -/
def from_str_radix8_u32 (s : List Nat) : Except String Nat :=
  match s with
  | [] => .error "cannot parse integer from empty string"
  | c :: rest =>
    if c = 0x2B then
      if rest = [] then .error "invalid digit found in string"
      else checkedFold 8 (2 ^ 32 - 1) rest 0
    else checkedFold 8 (2 ^ 32 - 1) (c :: rest) 0

/-- `str::parse::<i64>` (used for `tv_sec` and `tv_nsec`): optional `+` or
`-` sign, then checked decimal digits; the negative case accumulates with
`checked_sub`, allowing magnitudes up to `2^63`. -/
def parse_i64 (s : List Nat) : Except String Int :=
  match s with
  | [] => .error "cannot parse integer from empty string"
  | c :: rest =>
    if c = 0x2B then
      if rest = [] then .error "invalid digit found in string"
      else Except.map Int.ofNat (checkedFold 10 (2 ^ 63 - 1) rest 0)
    else if c = 0x2D then
      if rest = [] then .error "invalid digit found in string"
      else Except.map (fun n => -Int.ofNat n) (checkedFold 10 (2 ^ 63) rest 0)
    else Except.map Int.ofNat (checkedFold 10 (2 ^ 63 - 1) (c :: rest) 0)

/-- The decoded applier input: `mode: Option<RawMode>` (`RawMode` is `u32`
on Linux) and `mtime: Option<Timespec>` (`tv_sec: i64`, `tv_nsec: i64`). -/
structure StatApply where
  mode : Option Nat
  mtime : Option (Int × Int)

deriving DecidableEq, Repr

/-- `StatApply::new()` = `StatApply::default()`. -/
def StatApply.new : StatApply := ⟨none, none⟩

/-- The value computed by `StatApply::set_mode` (statfile.rs 88-92) from
its field data alone: UTF-8 check (`str::from_utf8`), then base-8
`RawMode::from_str_radix`; both failures are wrapped as `invalid_data`. -/
def modeVal (data : List Nat) : Except String Nat :=
  if isValidUtf8 data then from_str_radix8_u32 data
  else .error "invalid utf-8 sequence"

/-- `StatApply::set_mode`: on success the parsed value is stored in
`self.mode`; the previous record fields are otherwise untouched. -/
def StatApply.set_mode (a : StatApply) (data : List Nat) : Except String StatApply :=
  Except.map (fun m => { a with mode := some m }) (modeVal data)

/-- The `Timespec` computed by `StatApply::set_mtime` (statfile.rs
95-112) from its field data alone: UTF-8 check, split on `.` (for valid
UTF-8 the `str::split` char boundaries coincide with byte positions of
0x2E), parse the first chunk as `i64` seconds, then require either
exactly one chunk (nanoseconds default 0) or exactly two chunks with the
second 9 bytes long and parsing as `i64` nanoseconds. -/
def mtimeVal (data : List Nat) : Except String (Int × Int) :=
  if isValidUtf8 data then
    match parse_i64 ((rustSplit 0x2E data).headD []) with
    | .error e => .error e
    | .ok sec =>
      match rustSplit 0x2E data with
      | [_] => .ok (sec, 0)
      | [_, nsec] =>
        if nsec.length = 9 then
          Except.map (fun n => (sec, n)) (parse_i64 nsec)
        else .error "invalid mtime"
      | _ => .error "invalid mtime"
  else .error "invalid utf-8 sequence"

/-- `StatApply::set_mtime`: on success the parsed `Timespec` is stored in
`self.mtime`; the previous record fields are otherwise untouched. -/
def StatApply.set_mtime (a : StatApply) (data : List Nat) : Except String StatApply :=
  Except.map (fun t => { a with mtime := some t }) (mtimeVal data)

/-- The bytes of `"mode="`. -/
def modeKey : List Nat := [0x6D, 0x6F, 0x64, 0x65, 0x3D]

/-- The bytes of `"mtime="`. -/
def mtimeKey : List Nat := [0x6D, 0x74, 0x69, 0x6D, 0x65, 0x3D]

/-- The split point used by `parse_line` for one `key=value` field: one
past the first `=`, or the whole field when there is no `=`. -/
def splitEqPos (item : List Nat) : Nat :=
  match item.findIdx? (fun b => b == 0x3D) with
  | some p => p + 1
  | none => item.length

/-- One iteration of the `parse_line` loop (statfile.rs 63-72):
`split_at` the field after the first `=`; the key including the `=` is
compared against `b"mode="` / `b"mtime="`; any other field is ignored. -/
def processItem (a : StatApply) (item : List Nat) : Except String StatApply :=
  let key := item.take (splitEqPos item)
  let data := item.drop (splitEqPos item)
  if key = modeKey then a.set_mode data
  else if key = mtimeKey then a.set_mtime data
  else .ok a

/-- The `for` loop of `parse_line`: the `?` operator aborts on the first
failing field. -/
def processItems : StatApply → List (List Nat) → Except String StatApply
  | a, [] => .ok a
  | a, item :: rest =>
    match processItem a item with
    | .ok a' => processItems a' rest
    | .error e => .error e

/-- `parse_line` (statfile.rs 61-75): split the line on tab, skip the
first field (the escaped name), fold the remaining fields into a fresh
`StatApply`. -/
def parse_line (line : List Nat) : Except String StatApply :=
  processItems StatApply.new (rustSplit 0x09 line).tail

/-- ASCII digit character for a digit value (lowercase for 10-15,
matching Rust's `{:o}` / `{}` formatting of digits 0-9 used here). -/
def digitChar (d : Nat) : Nat := if d < 10 then 0x30 + d else 0x61 + (d - 10)

/-- The digits of `n` in base `b`, most significant first, as ASCII
bytes; `0` renders as `"0"`.  (Degenerate bases below 2 render a single
digit to keep the recursion total; the code only uses 8 and 10.) -/
def natToBase (b : Nat) (n : Nat) : List Nat :=
  if n < b ∨ b < 2 then [digitChar n]
  else natToBase b (n / b) ++ [digitChar (n % b)]
termination_by n
decreasing_by exact Nat.div_lt_self (by omega) (by omega)

/-- Zero-padding to a minimum width, as in Rust's `{:03o}` / `{:09}`. -/
def zfill (w : Nat) (s : List Nat) : List Nat :=
  List.replicate (w - s.length) 0x30 ++ s

/-- Rust `{}` formatting of an `i64`: optional `-` sign, decimal digits. -/
def intToDec (i : Int) : List Nat :=
  if i < 0 then 0x2D :: natToBase 10 i.natAbs else natToBase 10 i.toNat

/-- `make_line` (statfile.rs 42-54): the escaped name followed by
`format!("\tmode={:03o}\tmtime={}.{:09}", mode, mtime, mtime_nsec)`.
`Metadata::mode()` is a `u32`; `Metadata::mtime()` is an `i64`;
`Metadata::mtime_nsec()` is the non-negative nanosecond fraction
(0..=999999999), modelled as `Nat`. -/
def make_line (name : List Nat) (mode : Nat) (sec : Int) (nsec : Nat) : List Nat :=
  escape name
    ++ (0x09 :: modeKey) ++ zfill 3 (natToBase 8 mode)
    ++ (0x09 :: mtimeKey) ++ intToDec sec ++ [0x2E] ++ zfill 9 (natToBase 10 nsec)

/-- Byte-lexicographic strict order on byte strings — the `Ord` instance
of Rust `[u8]`, which orders the `BTreeMap` keys. -/
def byteLexLt : List Nat → List Nat → Bool
  | [], [] => false
  | [], _ :: _ => true
  | _ :: _, [] => false
  | a :: as, b :: bs => a < b || (a = b && byteLexLt as bs)

/-- Insertion into the sorted association list modelling
`BTreeMap<Cow<[u8]>, Cow<[u8]>>`: inserting an existing key replaces its
value, as `BTreeMap` insertion (and hence `collect`) does. -/
def insertSorted (k v : List Nat) : List (List Nat × List Nat) → List (List Nat × List Nat)
  | [] => [(k, v)]
  | (k', v') :: rest =>
    if byteLexLt k k' then (k, v) :: (k', v') :: rest
    else if k = k' then (k, v) :: rest
    else (k', v') :: insertSorted k v rest

/-- Build the table from a sequence of key/line insertions. -/
def buildTable (entries : List (List Nat × List Nat)) : List (List Nat × List Nat) :=
  entries.foldl (fun t kv => insertSorted kv.1 kv.2 t) []

/-- The first tab-delimited field of a line (`split.next().unwrap()`,
which always exists since splitting yields at least one chunk). -/
def lineName (line : List Nat) : List Nat := (rustSplit 0x09 line).headD []

/-- `extract_name` (statfile.rs 56-59): the first tab-delimited field of
the line, unescaped, keyed to the original line bytes. -/
def extract_name (line : List Nat) : Except String (List Nat × List Nat) :=
  Except.map (fun u => (u, line)) (unescape (lineName line))

/-- The short-circuiting `collect::<Result<_>>` over
`lines.map(extract_name)`. -/
def collectEntries : List (List Nat) → Except String (List (List Nat × List Nat))
  | [] => .ok []
  | l :: rest =>
    match extract_name l with
    | .error e => .error e
    | .ok kv => Except.map (fun es => kv :: es) (collectEntries rest)

/-- The newline-split chunks of the input with empty lines discarded. -/
def statLines (data : List Nat) : List (List Nat) :=
  (rustSplit 0x0A data).filter (fun l => !l.isEmpty)

/-- `parse_stat_file` (statfile.rs 22-27): split on newline, drop empty
lines, extract each line's name, and collect into the ordered table. -/
def parse_stat_file (data : List Nat) : Except String (List (List Nat × List Nat)) :=
  match collectEntries (statLines data) with
  | .error e => .error e
  | .ok es => .ok (buildTable es)

/-- The byte stream produced by `write_stat_file` (statfile.rs 29-40):
each stored line in table iteration order, each followed by a newline.
(The temp-file/sync/rename mechanics are filesystem effects outside the
byte-level model.) -/
def write_stat_file : List (List Nat × List Nat) → List Nat
  | [] => []
  | kv :: rest => kv.2 ++ [0x0A] ++ write_stat_file rest

/-- A filesystem metadata operation issued by `apply`; the `follow` flag
records whether the rustix call is made with empty `AtFlags` (`true`) or
`AtFlags::SYMLINK_NOFOLLOW` (`false`). -/
inductive FsOp where
  | chmodat (path : List Nat) (mode : Nat) (follow : Bool)
  | utimensat (path : List Nat) (sec nsec : Int) (follow : Bool)

deriving DecidableEq, Repr

/-- `StatApply::is_link` (statfile.rs 114-117): the mode is present and
its file-type bits are the symlink marker. -/
def StatApply.is_link (a : StatApply) : Bool :=
  match a.mode with
  | some mode => Nat.land mode 0o170000 = 0o120000
  | none => false

/-- `StatApply::apply` (statfile.rs 119-149) as the list of filesystem
operations it issues (in order), or the malformed-input failure of the
path-traversal guard.  OS-level failures of the issued operations are
outside the model.  `Mode::from_bits_truncate(mode & 0o777)` keeps
exactly the low 9 bits, which are all valid `Mode` bits. -/
def StatApply.apply (a : StatApply) (name : List Nat) (follow : Bool) :
    Except String (List FsOp) :=
  if (rustSplit 0x2F name).any (fun c => c.isEmpty || c = [0x2E, 0x2E]) then
    .error "invalid path"
  else
    let follow := follow && !a.is_link
    let modeOps : List FsOp :=
      match a.mode with
      | some mode => if follow then [.chmodat name (Nat.land mode 0o777) follow] else []
      | none => []
    let mtimeOps : List FsOp :=
      match a.mtime with
      | some mt => [.utimensat name mt.1 mt.2 follow]
      | none => []
    .ok (modeOps ++ mtimeOps)

/-- Discriminates the mode-changing operation. -/
def isChmod : FsOp → Bool
  | .chmodat _ _ _ => true
  | .utimensat _ _ _ _ => false

/-- The strict key order of the table. -/
def keyLt (x y : List Nat × List Nat) : Prop := byteLexLt x.1 y.1 = true

/-- Some value is stored under key `k`. -/
def keyMem (k : List Nat) (t : List (List Nat × List Nat)) : Prop := ∃ v, (k, v) ∈ t

/-- Decoding a digit string back to its value in base `b` ("parsed as
octal/decimal"), following the claim's reading of the rendered fields. -/
def specBaseVal (b : Nat) (s : List Nat) : Nat :=
  s.foldl (fun a c => a * b + (c - 0x30)) 0

/-- Decoding a rendered signed decimal (optional leading `-`). -/
def specIntVal (s : List Nat) : Int :=
  if s.head? = some 0x2D then -(specBaseVal 10 s.tail : Int) else (specBaseVal 10 s : Int)

/-- Specification reading of a `mode=` field body: after an optional
leading `+`, the digit run considered by the parse. -/
def specDigits (s : List Nat) : List Nat :=
  if s.head? = some 0x2B then s.tail else s

/-- Specification reading (amended C5) of a `mode=` field body: an
optional leading `+`, then one or more octal digits whose value fits in
32 bits; anything else is malformed. -/
def specParseMode (s : List Nat) : Option Nat :=
  if specDigits s ≠ [] ∧ (∀ c ∈ specDigits s, 0x30 ≤ c ∧ c ≤ 0x37) ∧
      specBaseVal 8 (specDigits s) < 2 ^ 32 then
    some (specBaseVal 8 (specDigits s))
  else none

/-- Specification reading (amended C5) of a signed 64-bit decimal
integer: an optional `+` or `-` sign, then one or more decimal digits,
with the signed value in the `i64` range. -/
def specParseI64 (s : List Nat) : Option Int :=
  if s.head? = some 0x2B then
    if s.tail ≠ [] ∧ (∀ c ∈ s.tail, 0x30 ≤ c ∧ c ≤ 0x39) ∧
        specBaseVal 10 s.tail ≤ 2 ^ 63 - 1 then
      some ((specBaseVal 10 s.tail : Nat) : Int)
    else none
  else if s.head? = some 0x2D then
    if s.tail ≠ [] ∧ (∀ c ∈ s.tail, 0x30 ≤ c ∧ c ≤ 0x39) ∧
        specBaseVal 10 s.tail ≤ 2 ^ 63 then
      some (-(specBaseVal 10 s.tail : Int))
    else none
  else
    if s ≠ [] ∧ (∀ c ∈ s, 0x30 ≤ c ∧ c ≤ 0x39) ∧
        specBaseVal 10 s ≤ 2 ^ 63 - 1 then
      some ((specBaseVal 10 s : Nat) : Int)
    else none

/-- Specification reading (amended C5) of an `mtime=` field body:
`SECONDS` or `SECONDS.NANOSECONDS`, each side a signed 64-bit decimal
integer, the nanosecond part exactly 9 characters. -/
def specParseMtime (s : List Nat) : Option (Int × Int) :=
  match rustSplit 0x2E s with
  | [sec] => (specParseI64 sec).map (fun v => (v, 0))
  | [sec, nsec] =>
    if nsec.length = 9 then
      match specParseI64 sec, specParseI64 nsec with
      | some v, some n => some (v, n)
      | _, _ => none
    else none
  | _ => none

/-- Specification reading of one tab field: a field starting `mode=`
sets the mode, a field starting `mtime=` sets the mtime, anything else
is silently ignored. -/
def specField (a : StatApply) (item : List Nat) : Option StatApply :=
  if item.take 5 = modeKey then
    (specParseMode (item.drop 5)).map (fun m => { a with mode := some m })
  else if item.take 6 = mtimeKey then
    (specParseMtime (item.drop 6)).map (fun t => { a with mtime := some t })
  else some a

/-- Specification reading of the field loop, aborting on the first
malformed recognized field. -/
def specFields : StatApply → List (List Nat) → Option StatApply
  | a, [] => some a
  | a, item :: rest =>
    match specField a item with
    | some a' => specFields a' rest
    | none => none

/-- Specification reading of `parse_line`: split on tab, skip the first
field, process the remaining fields in order. -/
def specParseLine (line : List Nat) : Option StatApply :=
  specFields StatApply.new (rustSplit 0x09 line).tail

/-! ## Theorems -/

theorem rustSplit_ne_nil (sep : Nat) (l : List Nat) : rustSplit sep l ≠ [] := by
  cases l with
  | nil => simp [rustSplit]
  | cons c rest =>
    simp only [rustSplit]
    split
    · simp
    · split <;> simp

theorem rustSplit_cons_pos (sep c : Nat) (l : List Nat) (h : c = sep) :
    rustSplit sep (c :: l) = [] :: rustSplit sep l := by
  simp [rustSplit, h]

theorem rustSplit_cons_neg (sep c : Nat) (l : List Nat) (h : c ≠ sep) :
    rustSplit sep (c :: l) =
      match rustSplit sep l with
      | [] => [[c]]
      | chunk :: chunks => (c :: chunk) :: chunks := by
  simp [rustSplit, h]

/-- Splitting distributes over a separator in the middle. -/
theorem rustSplit_append_sep (sep : Nat) (xs ys : List Nat) :
    rustSplit sep (xs ++ sep :: ys) = rustSplit sep xs ++ rustSplit sep ys := by
  induction xs with
  | nil => simp [rustSplit]
  | cons c rest ih =>
    have hl : (c :: rest) ++ sep :: ys = c :: (rest ++ sep :: ys) := rfl
    rw [hl]
    by_cases hc : c = sep
    · rw [rustSplit_cons_pos _ _ _ hc, rustSplit_cons_pos _ _ _ hc, ih]
      rfl
    · rw [rustSplit_cons_neg _ _ _ hc, rustSplit_cons_neg _ _ _ hc, ih]
      cases h : rustSplit sep rest with
      | nil => exact absurd h (rustSplit_ne_nil sep rest)
      | cons chunk chunks => simp

/-- A list without the separator is a single chunk. -/
theorem rustSplit_eq_single (sep : Nat) (l : List Nat) (h : sep ∉ l) :
    rustSplit sep l = [l] := by
  induction l with
  | nil => rfl
  | cons c rest ih =>
    simp only [List.mem_cons, not_or] at h
    simp [rustSplit, Ne.symm h.1, ih h.2]

/-- Every non-separator element of the input lands in some chunk. -/
theorem mem_rustSplit_of_mem (sep : Nat) (l : List Nat) (c : Nat)
    (hc : c ∈ l) (hne : c ≠ sep) : ∃ chunk ∈ rustSplit sep l, c ∈ chunk := by
  induction l with
  | nil => simp at hc
  | cons d rest ih =>
    simp only [rustSplit]
    rcases List.mem_cons.mp hc with rfl | hmem
    · simp only [hne, if_false]
      cases h : rustSplit sep rest with
      | nil => exact ⟨[c], by simp⟩
      | cons chunk chunks => exact ⟨c :: chunk, by simp⟩
    · obtain ⟨chunk, hchunk, hcc⟩ := ih hmem
      by_cases hd : d = sep
      · exact ⟨chunk, by simp [hd, hchunk], hcc⟩
      · simp only [hd, if_false]
        cases h : rustSplit sep rest with
        | nil => simp [h] at hchunk
        | cons ch chs =>
          rw [h] at hchunk
          rcases List.mem_cons.mp hchunk with rfl | htail
          · exact ⟨d :: chunk, by simp, by simp [hcc]⟩
          · exact ⟨chunk, by simp [htail], hcc⟩

/-- For radices up to 10 (the code uses 8 and 10), `to_digit` accepts
exactly the first `radix` ASCII digits. -/
theorem to_digit_eq (radix c : Nat) (h2 : 2 ≤ radix) (h10 : radix ≤ 10) :
    to_digit radix c =
      if 0x30 ≤ c ∧ c < 0x30 + radix then some (c - 0x30) else none := by
  rw [to_digit]
  split_ifs with h1 hx2 hx3 hx4 hx5 hx6 <;> first | rfl | omega

theorem utf8Go_nil (fuel : Nat) : utf8Go fuel [] = true := by
  cases fuel <;> rfl

theorem utf8Go_fuel (fuel fuel' : Nat) (l : List Nat)
    (h : l.length ≤ fuel) (h' : l.length ≤ fuel') :
    utf8Go fuel l = utf8Go fuel' l := by
  induction fuel using Nat.strong_induction_on generalizing l fuel' with
  | _ fuel ih =>
    match fuel, l, fuel' with
    | f, [], f' => rw [utf8Go_nil, utf8Go_nil]
    | 0, c :: rest, _ => simp at h
    | f + 1, c :: rest, 0 => simp at h'
    | f + 1, c :: rest, f' + 1 =>
      simp only [utf8Go]
      cases hs : utf8SeqLen c rest with
      | none => rfl
      | some k =>
        simp only [List.length_cons] at h h'
        exact ih f (by omega) f' (rest.drop k)
          (by rw [List.length_drop]; omega)
          (by rw [List.length_drop]; omega)

/-- Pure-ASCII byte strings are valid UTF-8. -/
theorem isValidUtf8_of_ascii (l : List Nat) (h : ∀ c ∈ l, c < 0x80) :
    isValidUtf8 l = true := by
  induction l with
  | nil => rfl
  | cons c rest ih =>
    have hc : c ≤ 0x7F := by have := h c (by simp); omega
    have hstep : utf8SeqLen c rest = some 0 := by simp [utf8SeqLen, hc]
    show utf8Go (rest.length + 1) (c :: rest) = true
    rw [utf8Go, hstep]
    exact ih fun d hd => h d (by simp [hd])

theorem to_digit16_hexdigit : ∀ d, d < 16 → to_digit 16 (hexdigit d) = some d := by
  decide

theorem escape_byte_backslash (h : Bool) : escape_byte h 0x5C = true := by
  cases h <;> rfl

theorem unescapeLoop_escEnc (h : Bool) (c : Nat) (hc : c < 256) (rest : List Nat) :
    unescapeLoop (escEnc h c ++ rest) = Except.map (fun l => c :: l) (unescapeLoop rest) := by
  by_cases hbs : c = 0x5C
  · subst hbs
    show unescapeLoop (0x5C :: 0x5C :: rest) = _
    rw [unescapeLoop.eq_def]
    norm_num
  · by_cases hesc : escape_byte h c = true
    · have hdiv : c / 16 < 16 := by omega
      have hmod : c % 16 < 16 := by omega
      have hval : c / 16 * 16 + c % 16 = c := by omega
      simp only [escEnc, hbs, if_false, hesc, if_true, List.cons_append, List.nil_append]
      rw [unescapeLoop.eq_def]
      norm_num [to_digit16_hexdigit _ hdiv, to_digit16_hexdigit _ hmod, hval]
    · simp only [escEnc, hbs, if_false, hesc, List.cons_append, List.nil_append]
      rw [unescapeLoop.eq_def]
      simp [hbs]

theorem unescapeLoop_escapeBody (h : Bool) (name : List Nat)
    (hb : ∀ c ∈ name, c < 256) :
    unescapeLoop (escapeBody h name) = .ok name := by
  induction name with
  | nil => rfl
  | cons c rest ih =>
    rw [escapeBody, unescapeLoop_escEnc h c (hb c (by simp)),
      ih fun d hd => hb d (by simp [hd])]
    rfl

theorem escapeBody_mem_backslash (h : Bool) (name : List Nat) (c : Nat)
    (hmem : c ∈ name) (hesc : escape_byte h c = true) :
    0x5C ∈ escapeBody h name := by
  induction name with
  | nil => simp at hmem
  | cons d rest ih =>
    rw [escapeBody]
    rcases List.mem_cons.mp hmem with rfl | hmem
    · apply List.mem_append_left
      by_cases hbs : c = 0x5C
      · simp [escEnc, hbs]
      · simp [escEnc, hbs, hesc]
    · exact List.mem_append_right _ (ih hmem)

/-- C1: for every byte sequence `b` over the full byte range,
`unescape(escape(b))` succeeds and returns exactly `b`. -/
theorem claim_C1 (b : List Nat) (hb : ∀ c ∈ b, c < 256) :
    unescape (escape b) = .ok b := by
  rw [escape]
  by_cases hcount : 0 < (b.filter (escape_byte (!isValidUtf8 b))).length
  · rw [if_pos hcount]
    obtain ⟨c, hc⟩ := List.exists_mem_of_length_pos hcount
    have hmem := List.mem_filter.mp hc
    have hbs : (0x5C : Nat) ∈ escapeBody (!isValidUtf8 b) b :=
      escapeBody_mem_backslash _ _ _ hmem.1 hmem.2
    rw [unescape, if_pos (by simpa [List.contains, List.elem_iff] using hbs)]
    exact unescapeLoop_escapeBody _ _ hb
  · rw [if_neg hcount]
    have hnone : ∀ c ∈ b, escape_byte (!isValidUtf8 b) c = false := by
      intro c hc
      by_contra hne
      have : c ∈ b.filter (escape_byte (!isValidUtf8 b)) :=
        List.mem_filter.mpr ⟨hc, by simpa using hne⟩
      exact hcount (List.length_pos.mpr (by intro he; rw [he] at this; simp at this))
    have hnobs : (0x5C : Nat) ∉ b := by
      intro hmem
      have := hnone _ hmem
      rw [escape_byte_backslash] at this
      simp at this
    rw [unescape, if_neg (by simpa [List.contains, List.elem_iff] using hnobs)]

/-- Witness for C1 at a concrete mixed input (control byte, tab,
backslash, letter, invalid-UTF-8 high byte). -/
theorem claim_C1_witness :
    (∀ c ∈ [0x00, 0x09, 0x5C, 0x61, 0xE7, 0xFF], c < 256) ∧
      unescape (escape [0x00, 0x09, 0x5C, 0x61, 0xE7, 0xFF]) =
        .ok [0x00, 0x09, 0x5C, 0x61, 0xE7, 0xFF] :=
  ⟨by decide, claim_C1 [0x00, 0x09, 0x5C, 0x61, 0xE7, 0xFF] (by decide)⟩

/-- C4 counterexample: `b"\\"` is valid UTF-8 with no ASCII control
bytes, yet `escape` rewrites it to `b"\\\\"`, so `escape` is not the
identity there as the claim states. -/
theorem claim_C4_counterexample :
    isValidUtf8 [0x5C] = true ∧ (∀ c ∈ [0x5C], is_ascii_control c = false) ∧
      escape [0x5C] ≠ [0x5C] := by
  decide

/-- C4 (amended): `escape` is the identity on every byte sequence that is
valid UTF-8 text containing no ASCII control bytes **and no backslash
byte**. -/
theorem claim_C4 (b : List Nat) (hutf8 : isValidUtf8 b = true)
    (hclean : ∀ c ∈ b, is_ascii_control c = false ∧ c ≠ 0x5C) :
    escape b = b := by
  rw [escape]
  have hnone : ∀ c ∈ b, escape_byte (!isValidUtf8 b) c = false := by
    intro c hc
    simp [escape_byte, hutf8, (hclean c hc).1, (hclean c hc).2]
  rw [if_neg]
  simp only [not_lt, Nat.le_zero, List.length_eq_zero, List.filter_eq_nil_iff]
  intro c hc
  simp [hnone c hc]

/-- Witness for C4 (amended) at the spec's own example: the UTF-8 bytes
of a multi-byte accented character pass through unchanged. -/
theorem claim_C4_witness :
    isValidUtf8 [0x63, 0xC3, 0xA7, 0x6F] = true ∧
      (∀ c ∈ [0x63, 0xC3, 0xA7, 0x6F], is_ascii_control c = false ∧ c ≠ 0x5C) ∧
      escape [0x63, 0xC3, 0xA7, 0x6F] = [0x63, 0xC3, 0xA7, 0x6F] :=
  ⟨by decide, by decide, claim_C4 [0x63, 0xC3, 0xA7, 0x6F] (by decide) (by decide)⟩

/-- C9: on any byte sequence without a backslash byte — raw control
bytes, tabs and bytes ≥ 0x80 included — `unescape` succeeds and is the
identity. -/
theorem claim_C9 (b : List Nat) (hb : (0x5C : Nat) ∉ b) : unescape b = .ok b := by
  rw [unescape, if_neg (by simpa [List.contains, List.elem_iff] using hb)]

/-- Witness for C9 at a concrete input holding a control byte, a tab and
two high bytes. -/
theorem claim_C9_witness :
    ((0x5C : Nat) ∉ [0x01, 0x09, 0x80, 0xFF]) ∧
      unescape [0x01, 0x09, 0x80, 0xFF] = .ok [0x01, 0x09, 0x80, 0xFF] :=
  ⟨by decide, claim_C9 [0x01, 0x09, 0x80, 0xFF] (by decide)⟩

/-- C2: for every path and both follow flags, a path whose `/`-split
contains an empty or `..` segment makes `apply` fail as malformed input —
the `Except` error carries no `FsOp`, so no filesystem operation is
performed. -/
theorem claim_C2 (a : StatApply) (name : List Nat) (follow : Bool)
    (h : (rustSplit 0x2F name).any (fun c => c.isEmpty || c = [0x2E, 0x2E]) = true) :
    a.apply name follow = .error "invalid path" := by
  rw [StatApply.apply, if_pos h]

/-- Witness for C2 at `b"../dir"` (and the guard holds for both flags,
instantiated here at `follow = true`). -/
theorem claim_C2_witness :
    ((rustSplit 0x2F [0x2E, 0x2E, 0x2F, 0x64, 0x69, 0x72]).any
        (fun c => c.isEmpty || c = [0x2E, 0x2E]) = true) ∧
      StatApply.new.apply [0x2E, 0x2E, 0x2F, 0x64, 0x69, 0x72] true =
        .error "invalid path" :=
  ⟨by decide, claim_C2 StatApply.new [0x2E, 0x2E, 0x2F, 0x64, 0x69, 0x72] true (by decide)⟩

/-- C3: `is_link` holds iff a mode is present with symlink file-type
bits; past the traversal guard, `apply` succeeds and issues a chmod
exactly when a mode is present and the effective follow flag
`follow && !is_link` is true — then with only the low 9 permission bits
and following symlinks — and issues no chmod otherwise. -/
theorem claim_C3 (a : StatApply) (name : List Nat) (follow : Bool)
    (h : (rustSplit 0x2F name).any (fun c => c.isEmpty || c = [0x2E, 0x2E]) = false) :
    (a.is_link = true ↔ ∃ m, a.mode = some m ∧ Nat.land m 0o170000 = 0o120000) ∧
      ∃ ops, a.apply name follow = .ok ops ∧
        ops.filter isChmod =
          (match a.mode with
           | some m =>
             if follow && !a.is_link then [FsOp.chmodat name (Nat.land m 0o777) true] else []
           | none => []) := by
  constructor
  · cases hm : a.mode with
    | none => simp [StatApply.is_link, hm]
    | some m => simp [StatApply.is_link, hm]
  · rw [StatApply.apply, if_neg (by simp [h])]
    refine ⟨_, rfl, ?_⟩
    rw [List.filter_append]
    have hmt : (match a.mtime with
        | some mt => [FsOp.utimensat name mt.1 mt.2 (follow && !a.is_link)]
        | none => ([] : List FsOp)).filter isChmod = [] := by
      cases a.mtime <;> simp [isChmod]
    rw [hmt, List.append_nil]
    cases hm : a.mode with
    | none => simp
    | some m =>
      cases hf : follow && !a.is_link <;> simp [hf, isChmod]

/-- Witness for C3: a regular-file record (mode `0o100644`, not a
symlink) applied with `follow = true` to path `b"a"` issues the chmod of
`0o644`. -/
theorem claim_C3_witness :
    ((rustSplit 0x2F [0x61]).any (fun c => c.isEmpty || c = [0x2E, 0x2E]) = false) ∧
      (((⟨some 0o100644, some (1, 2)⟩ : StatApply).is_link = true ↔
          ∃ m, (⟨some 0o100644, some (1, 2)⟩ : StatApply).mode = some m ∧
            Nat.land m 0o170000 = 0o120000) ∧
        ∃ ops, (⟨some 0o100644, some (1, 2)⟩ : StatApply).apply [0x61] true = .ok ops ∧
          ops.filter isChmod =
            (match (⟨some 0o100644, some (1, 2)⟩ : StatApply).mode with
             | some m =>
               if true && !(⟨some 0o100644, some (1, 2)⟩ : StatApply).is_link then
                 [FsOp.chmodat [0x61] (Nat.land m 0o777) true]
               else []
             | none => [])) :=
  ⟨by decide, claim_C3 ⟨some 0o100644, some (1, 2)⟩ [0x61] true (by decide)⟩

theorem byteLexLt_irrefl (l : List Nat) : byteLexLt l l = false := by
  induction l with
  | nil => rfl
  | cons c rest ih => simp [byteLexLt, ih]

theorem byteLexLt_trans (a b c : List Nat) (hab : byteLexLt a b = true)
    (hbc : byteLexLt b c = true) : byteLexLt a c = true := by
  induction a generalizing b c with
  | nil =>
    cases b with
    | nil => simp [byteLexLt] at hab
    | cons y bs =>
      cases c with
      | nil => simp [byteLexLt] at hbc
      | cons z cs => rfl
  | cons x as ih =>
    cases b with
    | nil => simp [byteLexLt] at hab
    | cons y bs =>
      cases c with
      | nil => simp [byteLexLt] at hbc
      | cons z cs =>
        simp only [byteLexLt, Bool.or_eq_true, Bool.and_eq_true,
          decide_eq_true_eq] at hab hbc ⊢
        rcases hab with h1 | ⟨rfl, h1⟩
        · rcases hbc with h2 | ⟨rfl, h2⟩
          · exact Or.inl (by omega)
          · exact Or.inl h1
        · rcases hbc with h2 | ⟨rfl, h2⟩
          · exact Or.inl h2
          · exact Or.inr ⟨rfl, ih bs cs h1 h2⟩

theorem byteLexLt_total (a b : List Nat) :
    byteLexLt a b = true ∨ a = b ∨ byteLexLt b a = true := by
  induction a generalizing b with
  | nil => cases b <;> simp [byteLexLt]
  | cons x as ih =>
    cases b with
    | nil => simp [byteLexLt]
    | cons y bs =>
      rcases Nat.lt_trichotomy x y with h | h | h
      · exact Or.inl (by simp [byteLexLt, h])
      · subst h
        rcases ih bs with h1 | h1 | h1
        · exact Or.inl (by simp [byteLexLt, h1])
        · exact Or.inr (Or.inl (by rw [h1]))
        · exact Or.inr (Or.inr (by simp [byteLexLt, h1]))
      · exact Or.inr (Or.inr (by simp [byteLexLt, h]))

theorem mem_insertSorted (k v : List Nat) (t : List (List Nat × List Nat))
    (x : List Nat × List Nat) (hx : x ∈ insertSorted k v t) : x = (k, v) ∨ x ∈ t := by
  induction t with
  | nil => simpa [insertSorted] using hx
  | cons kv rest ih =>
    obtain ⟨k', v'⟩ := kv
    rw [insertSorted] at hx
    split at hx
    · rcases List.mem_cons.mp hx with rfl | hx
      · exact Or.inl rfl
      · exact Or.inr hx
    · split at hx
      · rcases List.mem_cons.mp hx with rfl | hx
        · exact Or.inl rfl
        · exact Or.inr (List.mem_cons_of_mem _ hx)
      · rcases List.mem_cons.mp hx with rfl | hx
        · exact Or.inr (List.mem_cons_self _ _)
        · rcases ih hx with h | h
          · exact Or.inl h
          · exact Or.inr (List.mem_cons_of_mem _ h)

theorem keyMem_insertSorted_self (k v : List Nat) (t : List (List Nat × List Nat)) :
    keyMem k (insertSorted k v t) := by
  induction t with
  | nil => exact ⟨v, by simp [insertSorted]⟩
  | cons kv rest ih =>
    obtain ⟨k', v'⟩ := kv
    rw [insertSorted]
    split
    · exact ⟨v, by simp⟩
    · split
      · exact ⟨v, by simp⟩
      · obtain ⟨w, hw⟩ := ih
        exact ⟨w, List.mem_cons_of_mem _ hw⟩

theorem keyMem_insertSorted_of (k v k' : List Nat) (t : List (List Nat × List Nat))
    (h : keyMem k' t) : keyMem k' (insertSorted k v t) := by
  by_cases hk : k' = k
  · subst hk; exact keyMem_insertSorted_self k' v t
  · obtain ⟨w, hw⟩ := h
    induction t with
    | nil => simp at hw
    | cons kv rest ih =>
      obtain ⟨k'', v''⟩ := kv
      rw [insertSorted]
      split
      · exact ⟨w, List.mem_cons_of_mem _ hw⟩
      · split
        · rename_i hlt heq
          rcases List.mem_cons.mp hw with hcase | hmem
          · exact absurd (congrArg Prod.fst hcase) (by simpa using fun h => hk (h.trans heq.symm))
          · exact ⟨w, List.mem_cons_of_mem _ hmem⟩
        · rcases List.mem_cons.mp hw with hcase | hmem
          · exact ⟨w, by rw [← hcase]; exact List.mem_cons_self _ _⟩
          · obtain ⟨u, hu⟩ := ih hmem
            exact ⟨u, List.mem_cons_of_mem _ hu⟩

theorem pairwise_insertSorted (k v : List Nat) (t : List (List Nat × List Nat))
    (h : List.Pairwise keyLt t) : List.Pairwise keyLt (insertSorted k v t) := by
  induction t with
  | nil => simp [insertSorted]
  | cons kv rest ih =>
    obtain ⟨k', v'⟩ := kv
    rw [List.pairwise_cons] at h
    obtain ⟨hall, hrest⟩ := h
    rw [insertSorted]
    split
    · rename_i hlt
      rw [List.pairwise_cons]
      refine ⟨?_, List.pairwise_cons.mpr ⟨hall, hrest⟩⟩
      intro x hx
      rcases List.mem_cons.mp hx with rfl | hx
      · exact hlt
      · exact byteLexLt_trans _ _ _ hlt (hall x hx)
    · split
      · rename_i hnlt heq
        subst heq
        exact List.pairwise_cons.mpr ⟨hall, hrest⟩
      · rename_i hnlt hne
        rw [List.pairwise_cons]
        refine ⟨?_, ih hrest⟩
        intro x hx
        rcases mem_insertSorted _ _ _ _ hx with rfl | hx
        · rcases byteLexLt_total k k' with h1 | h1 | h1
          · exact absurd h1 hnlt
          · exact absurd h1 hne
          · exact h1
        · exact hall x hx

theorem pairwise_foldl_insert (entries : List (List Nat × List Nat))
    (t : List (List Nat × List Nat)) (h : List.Pairwise keyLt t) :
    List.Pairwise keyLt (entries.foldl (fun t kv => insertSorted kv.1 kv.2 t) t) := by
  induction entries generalizing t with
  | nil => exact h
  | cons kv rest ih => exact ih _ (pairwise_insertSorted _ _ _ h)

theorem keys_nodup (t : List (List Nat × List Nat)) (h : List.Pairwise keyLt t) :
    (t.map Prod.fst).Nodup := by
  refine List.pairwise_map.mpr (h.imp ?_)
  intro a b hlt heq
  rw [keyLt, heq] at hlt
  rw [byteLexLt_irrefl] at hlt
  exact Bool.false_ne_true hlt

theorem mem_foldl_insert (entries : List (List Nat × List Nat))
    (t : List (List Nat × List Nat)) (x : List Nat × List Nat)
    (hx : x ∈ entries.foldl (fun t kv => insertSorted kv.1 kv.2 t) t) :
    x ∈ t ∨ x ∈ entries := by
  induction entries generalizing t with
  | nil => exact Or.inl hx
  | cons kv rest ih =>
    rcases ih _ hx with h | h
    · rcases mem_insertSorted _ _ _ _ h with rfl | h
      · exact Or.inr (List.mem_cons_self _ _)
      · exact Or.inl h
    · exact Or.inr (List.mem_cons_of_mem _ h)

theorem keyMem_foldl_insert (entries : List (List Nat × List Nat))
    (t : List (List Nat × List Nat)) (k : List Nat)
    (h : keyMem k t ∨ ∃ v, (k, v) ∈ entries) :
    keyMem k (entries.foldl (fun t kv => insertSorted kv.1 kv.2 t) t) := by
  induction entries generalizing t with
  | nil =>
    rcases h with h | ⟨v, hv⟩
    · exact h
    · simp at hv
  | cons kv rest ih =>
    rcases h with h | ⟨v, hv⟩
    · exact ih _ (Or.inl (keyMem_insertSorted_of _ _ _ _ h))
    · rcases List.mem_cons.mp hv with heq | hmem
      · refine ih _ (Or.inl ?_)
        rw [show k = kv.1 from congrArg Prod.fst heq]
        exact keyMem_insertSorted_self _ _ _
      · exact ih _ (Or.inr ⟨v, hmem⟩)

theorem collectEntries_ok_mem (lines : List (List Nat))
    (es : List (List Nat × List Nat)) (h : collectEntries lines = .ok es) :
    ∀ kv ∈ es, kv.2 ∈ lines ∧ unescape (lineName kv.2) = .ok kv.1 := by
  induction lines generalizing es with
  | nil =>
    rw [collectEntries] at h
    cases h
    simp
  | cons l rest ih =>
    rw [collectEntries] at h
    cases he : extract_name l with
    | error e => rw [he] at h; cases h
    | ok kv =>
      rw [he] at h
      cases hr : collectEntries rest with
      | error e => rw [hr] at h; cases h
      | ok es' =>
        rw [hr] at h
        cases h
        intro x hx
        rcases List.mem_cons.mp hx with rfl | hx
        · rw [extract_name] at he
          cases hu : unescape (lineName l) with
          | error e => rw [hu] at he; cases he
          | ok u =>
            rw [hu] at he
            cases he
            exact ⟨by simp, hu⟩
        · obtain ⟨h1, h2⟩ := ih es' hr x hx
          exact ⟨List.mem_cons_of_mem _ h1, h2⟩

theorem collectEntries_ok_keys (lines : List (List Nat))
    (es : List (List Nat × List Nat)) (h : collectEntries lines = .ok es) :
    ∀ l ∈ lines, ∃ k, unescape (lineName l) = .ok k ∧ (k, l) ∈ es := by
  induction lines generalizing es with
  | nil => simp
  | cons l rest ih =>
    rw [collectEntries] at h
    cases he : extract_name l with
    | error e => rw [he] at h; cases h
    | ok kv =>
      rw [he] at h
      cases hr : collectEntries rest with
      | error e => rw [hr] at h; cases h
      | ok es' =>
        rw [hr] at h
        cases h
        intro x hx
        rcases List.mem_cons.mp hx with rfl | hx
        · rw [extract_name] at he
          cases hu : unescape (lineName x) with
          | error e => rw [hu] at he; cases he
          | ok u =>
            rw [hu] at he
            cases he
            exact ⟨u, rfl, List.mem_cons_self _ _⟩
        · obtain ⟨k, hk1, hk2⟩ := ih es' hr x hx
          exact ⟨k, hk1, List.mem_cons_of_mem _ hk2⟩

theorem collectEntries_ok_iff (lines : List (List Nat)) :
    (∃ es, collectEntries lines = .ok es) ↔
      ∀ l ∈ lines, ∃ u, unescape (lineName l) = .ok u := by
  induction lines with
  | nil => simp [collectEntries]
  | cons l rest ih =>
    constructor
    · rintro ⟨es, h⟩
      rw [collectEntries] at h
      cases he : extract_name l with
      | error e => rw [he] at h; cases h
      | ok kv =>
        rw [he] at h
        cases hr : collectEntries rest with
        | error e => rw [hr] at h; cases h
        | ok es' =>
          intro x hx
          rcases List.mem_cons.mp hx with rfl | hx
          · rw [extract_name] at he
            cases hu : unescape (lineName x) with
            | error e => rw [hu] at he; cases he
            | ok u => exact ⟨u, rfl⟩
          · exact ih.mp ⟨es', hr⟩ x hx
    · intro hall
      obtain ⟨u, hu⟩ := hall l (List.mem_cons_self _ _)
      obtain ⟨es', hes'⟩ := ih.mpr fun x hx => hall x (List.mem_cons_of_mem _ hx)
      refine ⟨(u, l) :: es', ?_⟩
      rw [collectEntries, extract_name, hu, hes']
      rfl

/-- C7: `parse_stat_file` splits on newline, discards empty lines, and
succeeds exactly when every remaining line's first tab-field unescapes;
on success every table entry keys the unescaped name of an original
stored line, and every line's unescaped name is a table key; any
unescape failure fails the whole parse. -/
theorem claim_C7 (data : List Nat) :
    ((∃ t, parse_stat_file data = .ok t) ↔
      ∀ l ∈ statLines data, ∃ u, unescape (lineName l) = .ok u) ∧
    ∀ t, parse_stat_file data = .ok t →
      (∀ kv ∈ t, kv.2 ∈ statLines data ∧ unescape (lineName kv.2) = .ok kv.1) ∧
      (∀ l ∈ statLines data, ∃ k, unescape (lineName l) = .ok k ∧ keyMem k t) := by
  constructor
  · rw [← collectEntries_ok_iff]
    constructor
    · rintro ⟨t, ht⟩
      rw [parse_stat_file] at ht
      cases hc : collectEntries (statLines data) with
      | error e => rw [hc] at ht; cases ht
      | ok es => exact ⟨es, rfl⟩
    · rintro ⟨es, hes⟩
      exact ⟨buildTable es, by rw [parse_stat_file, hes]⟩
  · intro t ht
    rw [parse_stat_file] at ht
    cases hc : collectEntries (statLines data) with
    | error e => rw [hc] at ht; cases ht
    | ok es =>
      rw [hc] at ht
      cases ht
      constructor
      · intro kv hkv
        rcases mem_foldl_insert es [] kv hkv with h | h
        · simp at h
        · exact collectEntries_ok_mem _ _ hc kv h
      · intro l hl
        obtain ⟨k, hk1, hk2⟩ := collectEntries_ok_keys _ _ hc l hl
        exact ⟨k, hk1, keyMem_foldl_insert es [] k (Or.inr ⟨l, hk2⟩)⟩

/-- Witness for C7 at the two-line input `b"b\tm\na\tn\n"`. -/
theorem claim_C7_witness :
    ((∃ t, parse_stat_file [0x62, 0x09, 0x6D, 0x0A, 0x61, 0x09, 0x6E, 0x0A] = .ok t) ↔
      ∀ l ∈ statLines [0x62, 0x09, 0x6D, 0x0A, 0x61, 0x09, 0x6E, 0x0A],
        ∃ u, unescape (lineName l) = .ok u) ∧
    ∀ t, parse_stat_file [0x62, 0x09, 0x6D, 0x0A, 0x61, 0x09, 0x6E, 0x0A] = .ok t →
      (∀ kv ∈ t, kv.2 ∈ statLines [0x62, 0x09, 0x6D, 0x0A, 0x61, 0x09, 0x6E, 0x0A] ∧
        unescape (lineName kv.2) = .ok kv.1) ∧
      (∀ l ∈ statLines [0x62, 0x09, 0x6D, 0x0A, 0x61, 0x09, 0x6E, 0x0A],
        ∃ k, unescape (lineName l) = .ok k ∧ keyMem k t) :=
  claim_C7 [0x62, 0x09, 0x6D, 0x0A, 0x61, 0x09, 0x6E, 0x0A]

/-- C8: every table reachable by insertions — `buildTable` covers both
the capture-side `collect`/insert path and the parse path, which the
second conjunct instantiates — is strictly increasing in raw
byte-lexicographic key order (hence so is the line order serialized by
`write_stat_file`, which follows iteration order), and its keys are
unique. -/
theorem claim_C8 (entries : List (List Nat × List Nat)) :
    (List.Pairwise keyLt (buildTable entries) ∧
      ((buildTable entries).map Prod.fst).Nodup) ∧
    ∀ data t, parse_stat_file data = .ok t →
      List.Pairwise keyLt t ∧ (t.map Prod.fst).Nodup := by
  have hbuild : ∀ es : List (List Nat × List Nat),
      List.Pairwise keyLt (buildTable es) :=
    fun es => pairwise_foldl_insert es [] (by simp)
  refine ⟨⟨hbuild entries, keys_nodup _ (hbuild entries)⟩, ?_⟩
  intro data t ht
  rw [parse_stat_file] at ht
  cases hc : collectEntries (statLines data) with
  | error e => rw [hc] at ht; cases ht
  | ok es =>
    rw [hc] at ht
    cases ht
    exact ⟨hbuild es, keys_nodup _ (hbuild es)⟩

/-- Witness for C8: inserting two out-of-order entries yields the sorted
two-entry table, and the parsed two-line file is sorted with unique
keys. -/
theorem claim_C8_witness :
    ((List.Pairwise keyLt (buildTable [([0x62], [0x6D]), ([0x61], [0x6E])]) ∧
      ((buildTable [([0x62], [0x6D]), ([0x61], [0x6E])]).map Prod.fst).Nodup)) ∧
    (List.Pairwise keyLt [([0x61], [0x61, 0x09, 0x6E]), ([0x62], [0x62, 0x09, 0x6D])] ∧
      (([([0x61], [0x61, 0x09, 0x6E]), ([0x62], [0x62, 0x09, 0x6D])] :
          List (List Nat × List Nat)).map Prod.fst).Nodup) :=
  ⟨(claim_C8 [([0x62], [0x6D]), ([0x61], [0x6E])]).1,
    (claim_C8 [([0x62], [0x6D]), ([0x61], [0x6E])]).2
      [0x62, 0x09, 0x6D, 0x0A, 0x61, 0x09, 0x6E, 0x0A]
      [([0x61], [0x61, 0x09, 0x6E]), ([0x62], [0x62, 0x09, 0x6D])] (by rfl)⟩

theorem natToBase_ne_nil (b n : Nat) : natToBase b n ≠ [] := by
  rw [natToBase]
  split
  · simp
  · simp

theorem natToBase_digits (b n : Nat) (hb2 : 2 ≤ b) (hb10 : b ≤ 10) :
    ∀ c ∈ natToBase b n, 0x30 ≤ c ∧ c < 0x30 + b := by
  induction n using Nat.strong_induction_on with
  | _ n ih =>
    rw [natToBase]
    split
    · rename_i h
      have hn : n < b := by omega
      intro c hc
      simp only [List.mem_singleton] at hc
      subst hc
      rw [digitChar]
      split <;> omega
    · rename_i h
      intro c hc
      rcases List.mem_append.mp hc with hc | hc
      · exact ih (n / b) (Nat.div_lt_self (by omega) (by omega)) c hc
      · simp only [List.mem_singleton] at hc
        subst hc
        have := Nat.mod_lt n (show 0 < b by omega)
        rw [digitChar]
        split <;> omega

theorem specBaseVal_append_single (b : Nat) (xs : List Nat) (y : Nat) :
    specBaseVal b (xs ++ [y]) = specBaseVal b xs * b + (y - 0x30) := by
  rw [specBaseVal, specBaseVal, List.foldl_append]
  rfl

theorem natToBase_val (b n : Nat) (hb2 : 2 ≤ b) (hb10 : b ≤ 10) :
    specBaseVal b (natToBase b n) = n := by
  induction n using Nat.strong_induction_on with
  | _ n ih =>
    rw [natToBase]
    split
    · rename_i h
      have hn : n < b := by omega
      rw [specBaseVal]
      simp only [List.foldl_cons, List.foldl_nil]
      rw [digitChar]
      split <;> omega
    · rename_i h
      rw [specBaseVal_append_single,
        ih (n / b) (Nat.div_lt_self (by omega) (by omega))]
      have hmod := Nat.mod_lt n (show 0 < b by omega)
      have hdm := Nat.div_add_mod n b
      rw [Nat.mul_comm] at hdm
      rw [digitChar]
      split <;> omega

theorem specBaseVal_cons_zero (b : Nat) (s : List Nat) :
    specBaseVal b (0x30 :: s) = specBaseVal b s := by
  rw [specBaseVal, specBaseVal, List.foldl_cons]
  norm_num

theorem specBaseVal_replicate_zero (b k : Nat) (s : List Nat) :
    specBaseVal b (List.replicate k 0x30 ++ s) = specBaseVal b s := by
  induction k with
  | zero => rfl
  | succ k ih =>
    rw [List.replicate_succ, List.cons_append, specBaseVal_cons_zero]
    exact ih

theorem zfill_val (b w : Nat) (s : List Nat) :
    specBaseVal b (zfill w s) = specBaseVal b s :=
  specBaseVal_replicate_zero b _ s

theorem zfill_length (w : Nat) (s : List Nat) :
    (zfill w s).length = max w s.length := by
  rw [zfill, List.length_append, List.length_replicate]
  omega

theorem natToBase_length_le (b : Nat) (hb2 : 2 ≤ b) :
    ∀ k n, 1 ≤ k → n < b ^ k → (natToBase b n).length ≤ k := by
  intro k
  induction k with
  | zero => omega
  | succ k ihk =>
    intro n _ hn
    rw [natToBase]
    split
    · simp
    · rename_i h
      rw [List.length_append]
      simp only [List.length_singleton]
      cases k with
      | zero =>
        rw [pow_one] at hn
        omega
      | succ k' =>
        have hdiv : n / b < b ^ (k' + 1) := by
          rw [Nat.div_lt_iff_lt_mul (by omega : 0 < b)]
          calc n < b ^ (k' + 1 + 1) := hn
          _ = b ^ (k' + 1) * b := by ring
        have := ihk (n / b) (by omega) hdiv
        omega

theorem natToBase_head_ne_zero (b n : Nat) (hb2 : 2 ≤ b) (hb10 : b ≤ 10) (hn : b ≤ n) :
    ∃ c cs, natToBase b n = c :: cs ∧ c ≠ 0x30 := by
  induction n using Nat.strong_induction_on with
  | _ n ih =>
    rw [natToBase, if_neg (by omega)]
    by_cases hq : n / b < b
    · have hq1 : 1 ≤ n / b := (Nat.one_le_div_iff (by omega)).mpr hn
      rw [natToBase, if_pos (Or.inl hq)]
      refine ⟨digitChar (n / b), _, rfl, ?_⟩
      rw [digitChar]
      split <;> omega
    · obtain ⟨c, cs, hrec, hc⟩ :=
        ih (n / b) (Nat.div_lt_self (by omega) (by omega)) (by omega)
      exact ⟨c, cs ++ [digitChar (n % b)], by rw [hrec]; rfl, hc⟩

/-- C6: `make_line` renders the escaped path, then a tab, `mode=` with
the mode in zero-padded minimum-3-digit octal, then a tab, `mtime=` with
the signed decimal seconds, a dot, and the nanoseconds as 9-digit
zero-padded decimal. -/
theorem claim_C6 (name : List Nat) (mode : Nat) (sec : Int) (nsec : Nat)
    (hm : mode < 2 ^ 32) (hn : nsec ≤ 999999999) :
    ∃ M N : List Nat,
      make_line name mode sec nsec =
        escape name ++ (0x09 :: modeKey) ++ M ++ (0x09 :: mtimeKey)
          ++ intToDec sec ++ [0x2E] ++ N ∧
      3 ≤ M.length ∧ (M.length = 3 ∨ M.head? ≠ some 0x30) ∧
      (∀ c ∈ M, 0x30 ≤ c ∧ c ≤ 0x37) ∧ specBaseVal 8 M = mode ∧
      N.length = 9 ∧ (∀ c ∈ N, 0x30 ≤ c ∧ c ≤ 0x39) ∧ specBaseVal 10 N = nsec ∧
      specIntVal (intToDec sec) = sec := by
  have hIntNeg : ∀ t : List Nat, specIntVal (0x2D :: t) = -(specBaseVal 10 t : Int) := by
    intro t
    rw [specIntVal]
    simp
  have hIntPos : ∀ (c : Nat) (t : List Nat), c ≠ 0x2D →
      specIntVal (c :: t) = (specBaseVal 10 (c :: t) : Int) := by
    intro c t hc
    rw [specIntVal]
    simp [hc]
  have hIntVal : specIntVal (intToDec sec) = sec := by
    rw [intToDec]
    by_cases hneg : sec < 0
    · rw [if_pos hneg, hIntNeg, natToBase_val 10 _ (by omega) (by omega)]
      omega
    · rw [if_neg hneg]
      obtain ⟨c, cs, hrep, hge⟩ : ∃ c cs, natToBase 10 sec.toNat = c :: cs ∧ 0x30 ≤ c := by
        cases hnb : natToBase 10 sec.toNat with
        | nil => exact absurd hnb (natToBase_ne_nil _ _)
        | cons c cs =>
          exact ⟨c, cs, rfl,
            (natToBase_digits 10 sec.toNat (by omega) (by omega) c
              (by rw [hnb]; exact List.mem_cons_self _ _)).1⟩
      rw [hrep, hIntPos _ _ (by omega), ← hrep,
        natToBase_val 10 _ (by omega) (by omega)]
      omega
  refine ⟨zfill 3 (natToBase 8 mode), zfill 9 (natToBase 10 nsec), rfl,
    ?_, ?_, ?_, ?_, ?_, ?_, ?_, hIntVal⟩
  · rw [zfill_length]; omega
  · by_cases hlen : (natToBase 8 mode).length ≤ 3
    · left; rw [zfill_length]; omega
    · right
      have hpad : 3 - (natToBase 8 mode).length = 0 := by omega
      rw [zfill, hpad, List.replicate_zero, List.nil_append]
      have hmode : 8 ≤ mode := by
        by_contra hlt
        have : (natToBase 8 mode).length ≤ 1 :=
          natToBase_length_le 8 (by omega) 1 mode (by omega) (by rw [pow_one]; omega)
        omega
      obtain ⟨c, cs, hrep, hc⟩ := natToBase_head_ne_zero 8 mode (by omega) (by omega) hmode
      rw [hrep]
      simpa using hc
  · intro c hc
    rcases List.mem_append.mp hc with hc | hc
    · have := List.eq_of_mem_replicate hc
      omega
    · have := natToBase_digits 8 mode (by omega) (by omega) c hc
      omega
  · rw [zfill_val, natToBase_val 8 mode (by omega) (by omega)]
  · rw [zfill_length]
    have : (natToBase 10 nsec).length ≤ 9 :=
      natToBase_length_le 10 (by omega) 9 nsec (by omega) (by norm_num; omega)
    omega
  · intro c hc
    rcases List.mem_append.mp hc with hc | hc
    · have := List.eq_of_mem_replicate hc
      omega
    · have := natToBase_digits 10 nsec (by omega) (by omega) c hc
      omega
  · rw [zfill_val, natToBase_val 10 nsec (by omega) (by omega)]

/-- Witness for C6 at path `b"a"`, mode `0o644`, mtime `-5.000000789`. -/
theorem claim_C6_witness :
    (0o644 : Nat) < 2 ^ 32 ∧ (789 : Nat) ≤ 999999999 ∧
    ∃ M N : List Nat,
      make_line [0x61] 0o644 (-5) 789 =
        escape [0x61] ++ (0x09 :: modeKey) ++ M ++ (0x09 :: mtimeKey)
          ++ intToDec (-5) ++ [0x2E] ++ N ∧
      3 ≤ M.length ∧ (M.length = 3 ∨ M.head? ≠ some 0x30) ∧
      (∀ c ∈ M, 0x30 ≤ c ∧ c ≤ 0x37) ∧ specBaseVal 8 M = 0o644 ∧
      N.length = 9 ∧ (∀ c ∈ N, 0x30 ≤ c ∧ c ≤ 0x39) ∧ specBaseVal 10 N = 789 ∧
      specIntVal (intToDec (-5)) = -5 :=
  ⟨by decide, by decide, claim_C6 [0x61] 0o644 (-5) 789 (by decide) (by decide)⟩

theorem processItems_append (a : StatApply) (l₁ l₂ : List (List Nat)) :
    processItems a (l₁ ++ l₂) =
      match processItems a l₁ with
      | .ok a' => processItems a' l₂
      | .error e => .error e := by
  induction l₁ generalizing a with
  | nil => rfl
  | cons i rest ih =>
    rw [List.cons_append, processItems, processItems]
    cases processItem a i with
    | ok a' => exact ih a'
    | error e => rfl

theorem processItems_single (a : StatApply) (item : List Nat) :
    processItems a [item] = processItem a item := by
  rw [processItems]
  cases processItem a item <;> rfl

theorem splitEqPos_modeKey (d : List Nat) : splitEqPos (modeKey ++ d) = 5 := by
  rw [splitEqPos, modeKey]
  simp only [List.cons_append, List.nil_append, List.findIdx?_cons]
  norm_num

theorem splitEqPos_mtimeKey (e : List Nat) : splitEqPos (mtimeKey ++ e) = 6 := by
  rw [splitEqPos, mtimeKey]
  simp only [List.cons_append, List.nil_append, List.findIdx?_cons]
  norm_num

theorem processItem_mode (a : StatApply) (d : List Nat) :
    processItem a (modeKey ++ d) = a.set_mode d := by
  rw [processItem, splitEqPos_modeKey,
    show (5 : Nat) = modeKey.length from rfl, List.take_left, List.drop_left,
    if_pos rfl]

theorem processItem_mtime (a : StatApply) (e : List Nat) :
    processItem a (mtimeKey ++ e) = a.set_mtime e := by
  rw [processItem, splitEqPos_mtimeKey,
    show (6 : Nat) = mtimeKey.length from rfl, List.take_left, List.drop_left,
    if_neg (by decide), if_pos rfl]

/-- Appending one more tab-separated field (whose body holds no tab)
appends its processing step to the `parse_line` fold. -/
theorem parse_line_append_field (line item : List Nat) (a : StatApply)
    (hitem : (0x09 : Nat) ∉ item) (h : parse_line line = .ok a) :
    parse_line (line ++ 0x09 :: item) = processItem a item := by
  rw [parse_line, rustSplit_append_sep, rustSplit_eq_single _ _ hitem]
  have htail : (rustSplit 0x09 line ++ [item]).tail = (rustSplit 0x09 line).tail ++ [item] := by
    cases hs : rustSplit 0x09 line with
    | nil => exact absurd hs (rustSplit_ne_nil _ _)
    | cons x xt => rfl
  rw [htail, processItems_append]
  rw [parse_line] at h
  rw [h]
  exact processItems_single a item

/-- C10: a recognized key occurring in a later tab-separated field
overrides any earlier occurrence — appending a final `mode=`/`mtime=`
field makes the parse end in that field's `set_mode`/`set_mtime`, whose
stored value is independent of the previously accumulated record. -/
theorem claim_C10 (line d e : List Nat) (a : StatApply)
    (hd : (0x09 : Nat) ∉ d) (he : (0x09 : Nat) ∉ e)
    (h : parse_line line = .ok a) :
    parse_line (line ++ 0x09 :: (modeKey ++ d)) = a.set_mode d ∧
    parse_line (line ++ 0x09 :: (mtimeKey ++ e)) = a.set_mtime e ∧
    (∀ a₁ a₂ : StatApply,
      Except.map StatApply.mode (a₁.set_mode d) = Except.map StatApply.mode (a₂.set_mode d)) ∧
    (∀ a₁ a₂ : StatApply,
      Except.map StatApply.mtime (a₁.set_mtime e) =
        Except.map StatApply.mtime (a₂.set_mtime e)) := by
  refine ⟨?_, ?_, ?_, ?_⟩
  · rw [parse_line_append_field line _ a ?_ h]
    · exact processItem_mode a d
    · intro hmem
      rcases List.mem_append.mp hmem with h5 | h5
      · simp [modeKey] at h5
      · exact hd h5
  · rw [parse_line_append_field line _ a ?_ h]
    · exact processItem_mtime a e
    · intro hmem
      rcases List.mem_append.mp hmem with h6 | h6
      · simp [mtimeKey] at h6
      · exact he h6
  · intro a₁ a₂
    cases hm : modeVal d <;> simp [StatApply.set_mode, hm, Except.map]
  · intro a₁ a₂
    cases hm : mtimeVal e <;> simp [StatApply.set_mtime, hm, Except.map]

/-- Witness for C10: `b"n\tmode=1\tmtime=2"` followed by a second
`mode=20` field parses to the mode of the last field. -/
theorem claim_C10_witness :
    ((0x09 : Nat) ∉ [0x32, 0x30]) ∧ ((0x09 : Nat) ∉ [0x33]) ∧
    parse_line ([0x6E, 0x09] ++ modeKey ++ [0x31, 0x09] ++ mtimeKey ++ [0x32]) =
      .ok ⟨some 1, some (2, 0)⟩ ∧
    parse_line (([0x6E, 0x09] ++ modeKey ++ [0x31, 0x09] ++ mtimeKey ++ [0x32])
        ++ 0x09 :: (modeKey ++ [0x32, 0x30])) =
      (⟨some 1, some (2, 0)⟩ : StatApply).set_mode [0x32, 0x30] ∧
    parse_line (([0x6E, 0x09] ++ modeKey ++ [0x31, 0x09] ++ mtimeKey ++ [0x32])
        ++ 0x09 :: (mtimeKey ++ [0x33])) =
      (⟨some 1, some (2, 0)⟩ : StatApply).set_mtime [0x33] ∧
    (⟨some 1, some (2, 0)⟩ : StatApply).set_mode [0x32, 0x30] = .ok ⟨some 0o20, some (2, 0)⟩ :=
  ⟨by decide, by decide, by decide,
    (claim_C10 _ [0x32, 0x30] [0x33] ⟨some 1, some (2, 0)⟩ (by decide) (by decide)
      (by decide)).1,
    (claim_C10 _ [0x32, 0x30] [0x33] ⟨some 1, some (2, 0)⟩ (by decide) (by decide)
      (by decide)).2.1,
    by decide⟩

theorem except_toOption_map {α β : Type} (f : α → β) (e : Except String α) :
    (Except.map f e).toOption = (e.toOption).map f := by
  cases e <;> rfl

theorem except_toOption_error {α : Type} (msg : String) :
    (Except.error msg : Except String α).toOption = none := rfl

theorem foldlDigits_le (r : Nat) (h1 : 1 ≤ r) (l : List Nat) :
    ∀ a : Nat, a ≤ l.foldl (fun a c => a * r + (c - 0x30)) a := by
  induction l with
  | nil => intro a; simp
  | cons c rest ih =>
    intro a
    rw [List.foldl_cons]
    refine le_trans ?_ (ih (a * r + (c - 0x30)))
    have := Nat.mul_le_mul_left a h1
    omega

/-- Rust's per-step checked digit fold succeeds exactly when every byte
is a digit of the radix and the resulting value stays within the bound. -/
theorem checkedFold_toOption (r M : Nat) (h2 : 2 ≤ r) (h10 : r ≤ 10) (digits : List Nat) :
    ∀ acc : Nat, acc ≤ M →
    (checkedFold r M digits acc).toOption =
      if (∀ c ∈ digits, 0x30 ≤ c ∧ c < 0x30 + r) ∧
          digits.foldl (fun a c => a * r + (c - 0x30)) acc ≤ M then
        some (digits.foldl (fun a c => a * r + (c - 0x30)) acc)
      else none := by
  induction digits with
  | nil =>
    intro acc hacc
    simp [checkedFold, hacc, Except.toOption]
  | cons c rest ih =>
    intro acc hacc
    by_cases hc : 0x30 ≤ c ∧ c < 0x30 + r
    · have hd : to_digit r c = some (c - 0x30) := by
        rw [to_digit_eq r c h2 h10, if_pos hc]
      by_cases hb : acc * r + (c - 0x30) ≤ M
      · simp only [checkedFold, hd, if_pos hb, List.foldl_cons]
        rw [ih _ hb]
        apply if_congr _ rfl rfl
        constructor
        · rintro ⟨hall, hf⟩
          refine ⟨fun x hx => ?_, hf⟩
          rcases List.mem_cons.mp hx with rfl | hx
          · exact hc
          · exact hall x hx
        · rintro ⟨hall, hf⟩
          exact ⟨fun x hx => hall x (List.mem_cons_of_mem _ hx), hf⟩
      · simp only [checkedFold, hd, if_neg hb]
        rw [if_neg, except_toOption_error]
        rintro ⟨_, hf⟩
        rw [List.foldl_cons] at hf
        have := foldlDigits_le r (by omega) rest (acc * r + (c - 0x30))
        omega
    · have hd : to_digit r c = none := by
        rw [to_digit_eq r c h2 h10, if_neg hc]
      simp only [checkedFold, hd]
      rw [if_neg fun h => hc (h.1 c (List.mem_cons_self _ _))]
      rfl

theorem specParseMode_none_of_bad (s : List Nat) (bad : Nat) (hmem : bad ∈ s)
    (hdig : ¬(0x30 ≤ bad ∧ bad ≤ 0x37)) (hplus : bad ≠ 0x2B) :
    specParseMode s = none := by
  rw [specParseMode, if_neg]
  rintro ⟨-, hall, -⟩
  refine hdig (hall bad ?_)
  rw [specDigits]
  cases s with
  | nil => simp at hmem
  | cons c t =>
    rcases List.mem_cons.mp hmem with rfl | hmem
    · rw [if_neg (by simpa using hplus)]
      exact List.mem_cons_self _ _
    · split
      · exact hmem
      · exact List.mem_cons_of_mem _ hmem

theorem specParseI64_none_of_bad (s : List Nat) (bad : Nat) (hmem : bad ∈ s)
    (hdig : ¬(0x30 ≤ bad ∧ bad ≤ 0x39)) (hplus : bad ≠ 0x2B) (hminus : bad ≠ 0x2D) :
    specParseI64 s = none := by
  cases s with
  | nil => simp at hmem
  | cons c t =>
    rw [specParseI64]
    rcases List.mem_cons.mp hmem with rfl | hmem
    · rw [if_neg (by simpa using hplus), if_neg (by simpa using hminus), if_neg]
      rintro ⟨-, hall, -⟩
      exact hdig (hall bad (List.mem_cons_self _ _))
    · by_cases h1 : (c :: t).head? = some 0x2B
      · rw [if_pos h1, if_neg]
        rintro ⟨-, hall, -⟩
        exact hdig (hall bad hmem)
      · rw [if_neg h1]
        by_cases h2 : (c :: t).head? = some 0x2D
        · rw [if_pos h2, if_neg]
          rintro ⟨-, hall, -⟩
          exact hdig (hall bad hmem)
        · rw [if_neg h2, if_neg]
          rintro ⟨-, hall, -⟩
          exact hdig (hall bad (List.mem_cons_of_mem _ hmem))

theorem exists_high_of_not_utf8 (s : List Nat) (h : isValidUtf8 s = false) :
    ∃ c ∈ s, 0x80 ≤ c := by
  by_contra hno
  push_neg at hno
  rw [isValidUtf8_of_ascii s (fun c hc => by have := hno c hc; omega)] at h
  cases h

theorem specBaseVal_eq_foldl (b : Nat) (l : List Nat) :
    specBaseVal b l = l.foldl (fun a c => a * b + (c - 0x30)) 0 := rfl

/-- `set_mode`'s parse agrees with the specification reading of a
`mode=` field on every byte string. -/
theorem modeVal_toOption (s : List Nat) : (modeVal s).toOption = specParseMode s := by
  by_cases hu : isValidUtf8 s = true
  · rw [modeVal, if_pos hu]
    cases s with
    | nil => decide
    | cons c t =>
      by_cases hp : c = 0x2B
      · subst hp
        cases t with
        | nil => decide
        | cons d u =>
          have hfs : from_str_radix8_u32 (0x2B :: d :: u) =
              checkedFold 8 (2 ^ 32 - 1) (d :: u) 0 := by
            rw [from_str_radix8_u32, if_pos rfl, if_neg (by simp)]
          rw [hfs, checkedFold_toOption 8 _ (by omega) (by omega) _ 0 (by omega)]
          have hsd : specDigits (0x2B :: d :: u) = d :: u := by
            simp [specDigits]
          rw [specParseMode, hsd]
          apply if_congr ?_ rfl rfl
          have he := specBaseVal_eq_foldl 8 (d :: u)
          constructor
          · rintro ⟨hall, hf⟩
            exact ⟨by simp, fun x hx => by have := hall x hx; omega, by omega⟩
          · rintro ⟨-, hall, hv⟩
            exact ⟨fun x hx => by have := hall x hx; omega, by omega⟩
      · have hfs : from_str_radix8_u32 (c :: t) = checkedFold 8 (2 ^ 32 - 1) (c :: t) 0 := by
          rw [from_str_radix8_u32, if_neg hp]
        rw [hfs, checkedFold_toOption 8 _ (by omega) (by omega) _ 0 (by omega)]
        have hsd : specDigits (c :: t) = c :: t := by
          rw [specDigits, if_neg (by simpa using hp)]
        rw [specParseMode, hsd]
        apply if_congr ?_ rfl rfl
        have he := specBaseVal_eq_foldl 8 (c :: t)
        constructor
        · rintro ⟨hall, hf⟩
          exact ⟨by simp, fun x hx => by have := hall x hx; omega, by omega⟩
        · rintro ⟨-, hall, hv⟩
          exact ⟨fun x hx => by have := hall x hx; omega, by omega⟩
  · rw [modeVal, if_neg hu, except_toOption_error]
    obtain ⟨bad, hmem, hbad⟩ :=
      exists_high_of_not_utf8 s (by simpa using hu)
    exact (specParseMode_none_of_bad s bad hmem (by omega) (by omega)).symm

/-- The `i64` parse agrees with the specification reading of a signed
64-bit decimal on every byte string. -/
theorem parse_i64_toOption (s : List Nat) : (parse_i64 s).toOption = specParseI64 s := by
  cases s with
  | nil => decide
  | cons c t =>
    by_cases hp : c = 0x2B
    · subst hp
      cases t with
      | nil => decide
      | cons d u =>
        have hfs : parse_i64 (0x2B :: d :: u) =
            Except.map Int.ofNat (checkedFold 10 (2 ^ 63 - 1) (d :: u) 0) := by
          rw [parse_i64, if_pos rfl, if_neg (by simp)]
        rw [hfs, except_toOption_map,
          checkedFold_toOption 10 _ (by omega) (by omega) _ 0 (by omega)]
        rw [specParseI64]
        simp only [List.head?_cons, List.tail_cons, Option.some.injEq]
        rw [if_pos trivial]
        have he := specBaseVal_eq_foldl 10 (d :: u)
        by_cases hcond : (∀ x ∈ d :: u, 0x30 ≤ x ∧ x < 0x30 + 10) ∧
            (d :: u).foldl (fun a c => a * 10 + (c - 0x30)) 0 ≤ 2 ^ 63 - 1
        · rw [if_pos hcond, if_pos ?_]
          · rfl
          · exact ⟨by simp, fun x hx => by have := hcond.1 x hx; omega,
              by have := hcond.2; omega⟩
        · rw [if_neg hcond, if_neg ?_]
          · rfl
          · rintro ⟨-, hall, hv⟩
            exact hcond ⟨fun x hx => by have := hall x hx; omega, by omega⟩
    · by_cases hm : c = 0x2D
      · subst hm
        cases t with
        | nil => decide
        | cons d u =>
          have hfs : parse_i64 (0x2D :: d :: u) =
              Except.map (fun n => -Int.ofNat n) (checkedFold 10 (2 ^ 63) (d :: u) 0) := by
            rw [parse_i64, if_neg (by omega), if_pos rfl, if_neg (by simp)]
          rw [hfs, except_toOption_map,
            checkedFold_toOption 10 _ (by omega) (by omega) _ 0 (by omega)]
          rw [specParseI64]
          simp only [List.head?_cons, List.tail_cons, Option.some.injEq]
          rw [if_neg (show ((0x2D : Nat) = 0x2B) → False from by decide), if_pos trivial]
          have he := specBaseVal_eq_foldl 10 (d :: u)
          by_cases hcond : (∀ x ∈ d :: u, 0x30 ≤ x ∧ x < 0x30 + 10) ∧
              (d :: u).foldl (fun a c => a * 10 + (c - 0x30)) 0 ≤ 2 ^ 63
          · rw [if_pos hcond, if_pos ?_]
            · rfl
            · exact ⟨by simp, fun x hx => by have := hcond.1 x hx; omega,
                by have := hcond.2; omega⟩
          · rw [if_neg hcond, if_neg ?_]
            · rfl
            · rintro ⟨-, hall, hv⟩
              exact hcond ⟨fun x hx => by have := hall x hx; omega, by omega⟩
      · have hfs : parse_i64 (c :: t) =
            Except.map Int.ofNat (checkedFold 10 (2 ^ 63 - 1) (c :: t) 0) := by
          rw [parse_i64, if_neg hp, if_neg hm]
        rw [hfs, except_toOption_map,
          checkedFold_toOption 10 _ (by omega) (by omega) _ 0 (by omega)]
        rw [specParseI64]
        simp only [List.head?_cons, List.tail_cons, Option.some.injEq]
        rw [if_neg hp, if_neg hm]
        have he := specBaseVal_eq_foldl 10 (c :: t)
        by_cases hcond : (∀ x ∈ c :: t, 0x30 ≤ x ∧ x < 0x30 + 10) ∧
            (c :: t).foldl (fun a c => a * 10 + (c - 0x30)) 0 ≤ 2 ^ 63 - 1
        · rw [if_pos hcond, if_pos ?_]
          · rfl
          · exact ⟨by simp, fun x hx => by have := hcond.1 x hx; omega,
              by have := hcond.2; omega⟩
        · rw [if_neg hcond, if_neg ?_]
          · rfl
          · rintro ⟨-, hall, hv⟩
            exact hcond ⟨fun x hx => by have := hall x hx; omega, by omega⟩

/-- `set_mtime`'s parse agrees with the specification reading of an
`mtime=` field on every byte string. -/
theorem mtimeVal_toOption (s : List Nat) : (mtimeVal s).toOption = specParseMtime s := by
  by_cases hu : isValidUtf8 s = true
  · rw [mtimeVal, if_pos hu, specParseMtime]
    cases hsp : rustSplit 0x2E s with
    | nil => exact absurd hsp (rustSplit_ne_nil _ _)
    | cons p ps =>
      cases ps with
      | nil =>
        simp only [List.headD_cons]
        cases hpi : parse_i64 p with
        | error e =>
          have hspec : specParseI64 p = none := by rw [← parse_i64_toOption, hpi]; rfl
          simp [hspec, Except.toOption]
        | ok v =>
          have hspec : specParseI64 p = some v := by rw [← parse_i64_toOption, hpi]; rfl
          simp [hspec, Except.toOption]
      | cons q qs =>
        cases qs with
        | nil =>
          simp only [List.headD_cons]
          cases hpi : parse_i64 p with
          | error e =>
            have hspec : specParseI64 p = none := by rw [← parse_i64_toOption, hpi]; rfl
            by_cases hlen : q.length = 9
            · simp [hspec, hlen, Except.toOption]
            · simp [hspec, hlen, Except.toOption]
          | ok v =>
            have hspec : specParseI64 p = some v := by rw [← parse_i64_toOption, hpi]; rfl
            by_cases hlen : q.length = 9
            · cases hq : parse_i64 q with
              | error e2 =>
                have hq2 : specParseI64 q = none := by rw [← parse_i64_toOption, hq]; rfl
                simp [hspec, hlen, hq, hq2, Except.toOption, Except.map]
              | ok n =>
                have hq2 : specParseI64 q = some n := by rw [← parse_i64_toOption, hq]; rfl
                simp [hspec, hlen, hq, hq2, Except.toOption, Except.map]
            · simp [hspec, hlen, Except.toOption]
        | cons r rs =>
          simp only [List.headD_cons]
          cases hpi : parse_i64 p with
          | error e => simp [Except.toOption]
          | ok v => simp [Except.toOption]
  · rw [mtimeVal, if_neg hu, except_toOption_error]
    obtain ⟨bad, hmem, hbad⟩ := exists_high_of_not_utf8 s (by simpa using hu)
    obtain ⟨chunk, hchunk, hbc⟩ := mem_rustSplit_of_mem 0x2E s bad hmem (by omega)
    have hbadI64 : ∀ x : List Nat, bad ∈ x → specParseI64 x = none := fun x hx =>
      specParseI64_none_of_bad x bad hx (by omega) (by omega) (by omega)
    rw [specParseMtime]
    cases hsp : rustSplit 0x2E s with
    | nil => rfl
    | cons p ps =>
      rw [hsp] at hchunk
      cases ps with
      | nil =>
        have hp : chunk = p := by simpa using hchunk
        simp [hbadI64 p (hp ▸ hbc)]
      | cons q qs =>
        cases qs with
        | nil =>
          by_cases hlen : q.length = 9
          · rcases List.mem_cons.mp hchunk with rfl | hq
            · simp [hlen, hbadI64 chunk hbc]
            · have hcq : chunk = q := by simpa using hq
              cases specParseI64 p <;> simp [hlen, hbadI64 q (hcq ▸ hbc)]
          · simp [hlen]
        | cons r rs => rfl

/-- If the key up to the first `=` equals `s`, then the first
`s.length` bytes of the field equal `s`. -/
theorem key_take_lead (item s : List Nat) (h : item.take (splitEqPos item) = s) :
    item.take s.length = s := by
  have hlen : s.length ≤ splitEqPos item := by
    rw [← h, List.length_take]
    omega
  have h2 : item.take s.length = (item.take (splitEqPos item)).take s.length := by
    rw [List.take_take, Nat.min_eq_left hlen]
  rw [h2, h, List.take_length]

theorem processItem_toOption (a : StatApply) (item : List Nat) :
    (processItem a item).toOption = specField a item := by
  by_cases h5 : item.take 5 = modeKey
  · have hsplit : item = modeKey ++ item.drop 5 := by
      conv_lhs => rw [← List.take_append_drop 5 item, h5]
    rw [specField, if_pos h5]
    nth_rewrite 1 [hsplit]
    rw [processItem_mode, StatApply.set_mode, except_toOption_map, modeVal_toOption]
  · by_cases h6 : item.take 6 = mtimeKey
    · have hsplit : item = mtimeKey ++ item.drop 6 := by
        conv_lhs => rw [← List.take_append_drop 6 item, h6]
      rw [specField, if_neg h5, if_pos h6]
      nth_rewrite 1 [hsplit]
      rw [processItem_mtime, StatApply.set_mtime, except_toOption_map, mtimeVal_toOption]
    · rw [specField, if_neg h5, if_neg h6, processItem,
        if_neg (fun h => h5 (key_take_lead item modeKey h)),
        if_neg (fun h => h6 (key_take_lead item mtimeKey h))]
      rfl

theorem processItems_toOption (items : List (List Nat)) :
    ∀ a, (processItems a items).toOption = specFields a items := by
  induction items with
  | nil => intro a; rfl
  | cons i rest ih =>
    intro a
    rw [processItems, specFields]
    cases hpi : processItem a i with
    | error e =>
      have hsf : specField a i = none := by rw [← processItem_toOption, hpi]; rfl
      rw [hsf]
      rfl
    | ok a' =>
      have hsf : specField a i = some a' := by rw [← processItem_toOption, hpi]; rfl
      rw [hsf]
      exact ih a'

/-- C5 (amended): `parse_line` splits on tab and skips the first field;
for each subsequent field split at the first `=`, a `mode=` field parses
per Rust `u32::from_str_radix` base-8 semantics (optional leading `+`,
then octal digits, value fitting 32 bits, malformed-input otherwise), an
`mtime=` field parses as SECONDS or SECONDS.NANOSECONDS with each side a
signed 64-bit decimal and the nanosecond part exactly 9 characters
(malformed-input otherwise), and every other field is silently ignored
— stated as agreement, up to the malformed-input message, with the
specification-side parser built from exactly that reading. -/
theorem claim_C5 (line : List Nat) : (parse_line line).toOption = specParseLine line := by
  rw [parse_line, specParseLine]
  exact processItems_toOption _ _

/-- C5 counterexample: the line `b"x\tmode=+644\tmtime=0.-00000001"`
parses successfully — `+644` is accepted although `+` is not an octal
digit, and `-00000001` is accepted as the 9-character nanosecond part
although it is not 9 digits — while `b"x\tmode=40000000000"` is pure
octal text yet fails (32-bit overflow); the claim as stated requires the
opposite in each case. -/
theorem claim_C5_counterexample :
    parse_line ([0x78, 0x09] ++ modeKey ++ [0x2B, 0x36, 0x34, 0x34] ++ [0x09] ++ mtimeKey
        ++ [0x30, 0x2E, 0x2D, 0x30, 0x30, 0x30, 0x30, 0x30, 0x30, 0x30, 0x31]) =
      .ok ⟨some 0o644, some (0, -1)⟩ ∧
    (parse_line ([0x78, 0x09] ++ modeKey
        ++ [0x34, 0x30, 0x30, 0x30, 0x30, 0x30, 0x30, 0x30, 0x30, 0x30, 0x30])).toOption =
      none := by
  decide

end Filestatrec
